import Mathlib

/-!
# Verification of the imports-detector core

Shallow embedding of the imports-detector repository (the module
resolver, the import/export extractor, the barrel tracer, the consumer
graph walker, and the search / project-analysis orchestrators) together
with proofs about the embedded definitions.

Modelling conventions:
* the host platform is POSIX (`process.platform` is not `win32`, path
  separators are `/`, `path.isAbsolute` tests for a leading slash);
* the file system is a finite association list from absolute paths to the
  parse result of the file (`none` models an unreadable or syntactically
  invalid file, for which `CodeParser.parseFile` throws);
* machine strings are Lean `String`s; the regular-expression based string
  operations of the source are implemented character-listwise.
-/

set_option autoImplicit false

namespace ImportsDetector

/-! ## Path utilities (Node `path` module, POSIX behaviour) -/

/-- Split a character list on the separator `/`. -/
def splitSlash : List Char → List (List Char)
  | [] => [[]]
  | c :: cs =>
    match splitSlash cs with
    | [] => [[]]
    | h :: t => if c = '/' then [] :: h :: t else (c :: h) :: t

/-- Process `.` and `..` segments the way `path.resolve` does for an
absolute path: `.` and empty segments are dropped, `..` pops the last
segment (and is a no-op at the root). -/
def resolveSegs (segs : List (List Char)) : List (List Char) :=
  segs.foldl
    (fun st sg =>
      if sg = [] ∨ sg = ['.'] then st
      else if sg = ['.', '.'] then st.dropLast
      else st ++ [sg]) []

/-- Node `path.resolve(base, rel)` for an absolute `base`: if `rel` is
absolute it wins, otherwise the two are joined; the result is normalised
segment-wise. -/
def pathResolve (base rel : String) : String :=
  let full := if rel.data.take 1 = ['/'] then rel.data else base.data ++ '/' :: rel.data
  ⟨'/' :: List.intercalate ['/'] (resolveSegs (splitSlash full))⟩

/-- Node `path.isAbsolute` (POSIX): a leading slash. -/
def isAbsolutePath (s : String) : Bool :=
  decide (s.data.take 1 = ['/'])

/-- Node `path.dirname` (POSIX) for the slash-containing paths the tool
feeds it: everything before the final separator, `.` when there is no
separator and `/` when the final separator is the leading one. -/
def dirname (s : String) : String :=
  match s.data.reverse.dropWhile (fun c => ¬ c = '/') with
  | [] => ⟨['.']⟩
  | _ :: rest => if rest = [] then ⟨['/']⟩ else ⟨rest.reverse⟩

/-- Node `path.extname`: the suffix of the basename from its last dot;
empty when the basename has no dot or only a leading dot. -/
def extname (s : String) : String :=
  let revBase := s.data.reverse.takeWhile (fun c => ¬ c = '/')
  let revAfterDot := revBase.takeWhile (fun c => ¬ c = '.')
  if revAfterDot.length = revBase.length then ⟨[]⟩
  else if revAfterDot.length + 1 = revBase.length then ⟨[]⟩
  else ⟨'.' :: revAfterDot.reverse⟩

/-- Node `path.basename`. -/
def basename (s : String) : String :=
  ⟨(s.data.reverse.takeWhile (fun c => ¬ c = '/')).reverse⟩

/-- Boolean prefix test on strings, by character lists. -/
def startsWithS (s pre : String) : Bool :=
  decide (s.data.take pre.data.length = pre.data)

/-- Boolean suffix test on character lists. -/
def endsWithL (l suf : List Char) : Bool :=
  decide (l.drop (l.length - suf.length) = suf)

/-- Boolean suffix test on strings. -/
def endsWithS (s suf : String) : Bool :=
  endsWithL s.data suf.data

/-- Substring test (used for the `node_modules` check). -/
def hasSubstr (pat : List Char) : List Char → Bool
  | [] => decide (pat = [])
  | c :: cs => decide ((c :: cs).take pat.length = pat) || hasSubstr pat cs

/-! ## ModuleResolver (src/module-resolver.ts) -/

/-- Collapse runs of `/` to a single `/` (the `replace(/\/+/g, '/')` step
of `normalizePath`). -/
def collapseSlashes (l : List Char) : List Char :=
  (l.foldl (fun acc c => if c = '/' ∧ acc.head? = some '/' then acc else c :: acc) []).reverse

/-- Character-level body of `ModuleResolver.normalizePath`: backslashes to
slashes, duplicate slashes collapsed, one leading `./` removed. -/
def normChars (l : List Char) : List Char :=
  let collapsed := collapseSlashes (l.map (fun c => if c = '\\' then '/' else c))
  if collapsed.take 2 = ['.', '/'] then collapsed.drop 2 else collapsed

/-- `ModuleResolver.normalizePath`. -/
def normalizePath (s : String) : String :=
  ⟨normChars s.data⟩

/-- The extension list hard-coded in `ModuleResolver.removeExtension`
(also the default value of the configurable resolver extension list). -/
def comparisonExtensions : List String :=
  [".ts", ".tsx", ".js", ".jsx", ".mjs", ".cjs"]

/-- Scan of `ModuleResolver.removeExtension`: drop the first matching
suffix from the fixed extension list. -/
def removeExtAux : List String → List Char → List Char
  | [], l => l
  | e :: es, l =>
    if endsWithL l e.data then l.take (l.length - e.data.length) else removeExtAux es l

/-- `ModuleResolver.removeExtension`. -/
def removeExtension (s : String) : String :=
  ⟨removeExtAux comparisonExtensions s.data⟩

/-- `ModuleResolver.pathsMatch` on the modelled POSIX host:
`process.platform` is not `win32`, so no case folding happens. -/
def pathsMatch (a b : String) : Bool :=
  decide (removeExtension (normalizePath a) = removeExtension (normalizePath b))

/-- The modelled file system: an association list from absolute file
paths to the result of parsing the file (`none` = parse failure). Only
files appear; `fs.statSync(p).isFile()` is membership of the key set. -/
structure FileSys (Ast : Type) where
  entries : List (String × Option Ast)

/-- `ModuleResolver.fileExists` (`fs.statSync(filePath).isFile()` with a
`false` fallback on exceptions). -/
def fileExists {Ast : Type} (fs : FileSys Ast) (p : String) : Bool :=
  fs.entries.any (fun e => decide (e.fst = p))

/-- Configuration of a `ModuleResolver` instance: the configured extension
list, the optional `baseUrl`, and the process working directory (used by
`path.resolve` when it is handed a lone relative path). -/
structure ResolverCfg where
  extensions : List String
  baseUrl : Option String
  cwd : String

/-- First hit of a probe over a list (the `for … return` loops of
`tryExtensions` and `tryIndex`). -/
def firstSome? {α β : Type} (f : α → Option β) : List α → Option β
  | [] => none
  | a :: as =>
    match f a with
    | some b => some b
    | none => firstSome? f as

/-- `ModuleResolver.tryExtensions`: the path as given when it already has
a configured extension and exists, else the first configured extension
whose addition makes an existing file. -/
def tryExtensions {Ast : Type} (fs : FileSys Ast) (cfg : ResolverCfg) (filePath : String) :
    Option String :=
  if extname filePath ≠ "" ∧ extname filePath ∈ cfg.extensions ∧ fileExists fs filePath then
    some filePath
  else
    firstSome?
      (fun e => if fileExists fs (filePath ++ e) then some (filePath ++ e) else none)
      cfg.extensions

/-- The `replace(/\/$/, '')` step of `tryIndex`. -/
def dropTrailingSlash (s : String) : String :=
  if endsWithS s "/" then ⟨s.data.dropLast⟩ else s

/-- `ModuleResolver.tryIndex`: drop one trailing slash and probe
`index.<ext>` inside the directory, in configured extension order. -/
def tryIndex {Ast : Type} (fs : FileSys Ast) (cfg : ResolverCfg) (dirPath : String) :
    Option String :=
  firstSome?
    (fun e =>
      if fileExists fs (dropTrailingSlash dirPath ++ "/index" ++ e) then
        some (dropTrailingSlash dirPath ++ "/index" ++ e)
      else none)
    cfg.extensions

/-- `ModuleResolver.resolveRelative`. -/
def resolveRelative {Ast : Type} (fs : FileSys Ast) (cfg : ResolverCfg)
    (specifier fromFile : String) : Option String :=
  (tryExtensions fs cfg (pathResolve (dirname fromFile) specifier)).orElse
    fun _ => tryIndex fs cfg (pathResolve (dirname fromFile) specifier)

/-- The `path.resolve` call of `resolveAbsolute` (a no-op for the
absolute specifiers its caller guards on). -/
def absoluteBase (cfg : ResolverCfg) (specifier : String) : String :=
  if isAbsolutePath specifier then specifier else pathResolve cfg.cwd specifier

/-- `ModuleResolver.resolveAbsolute`. -/
def resolveAbsolute {Ast : Type} (fs : FileSys Ast) (cfg : ResolverCfg)
    (specifier : String) : Option String :=
  (tryExtensions fs cfg (absoluteBase cfg specifier)).orElse
    fun _ => tryIndex fs cfg (absoluteBase cfg specifier)

/-- `ModuleResolver.shouldUseBaseUrlResolution`. -/
def shouldUseBaseUrlResolution (specifier : String) : Bool :=
  ! (startsWithS specifier "./" || startsWithS specifier "../") &&
  ! (! specifier.data.contains '/') &&
  ! hasSubstr "node_modules".data specifier.data

/-- `ModuleResolver.resolveWithBaseUrl`. -/
def resolveWithBaseUrl {Ast : Type} (fs : FileSys Ast) (cfg : ResolverCfg)
    (specifier : String) : Option String :=
  match cfg.baseUrl with
  | none => none
  | some b =>
    (tryExtensions fs cfg (pathResolve b specifier)).orElse
      fun _ => tryIndex fs cfg (pathResolve b specifier)

/-- The branch cascade of `resolveImport` on the already-normalised
specifier. -/
def resolveImportN {Ast : Type} (fs : FileSys Ast) (cfg : ResolverCfg)
    (normalized fromFile : String) : Option String :=
  if startsWithS normalized "./" || startsWithS normalized "../" then
    resolveRelative fs cfg normalized fromFile
  else if isAbsolutePath normalized then
    resolveAbsolute fs cfg normalized
  else if ! normalized.data.contains '/' && ! startsWithS normalized "." then
    some normalized
  else if cfg.baseUrl.isSome && shouldUseBaseUrlResolution normalized then
    match resolveWithBaseUrl fs cfg normalized with
    | some r => some r
    | none => resolveRelative fs cfg normalized fromFile
  else
    resolveRelative fs cfg normalized fromFile

/-- `ModuleResolver.resolveImport`: normalise the specifier, then run the
five-step resolution algorithm. The whole body is wrapped in
`try/catch { return null }` in the source; the embedding is total, so the
catch arm is unreachable and the `null` outcomes are exactly the `none`s
produced below. -/
def resolveImport {Ast : Type} (fs : FileSys Ast) (cfg : ResolverCfg)
    (specifier fromFile : String) : Option String :=
  resolveImportN fs cfg (normalizePath specifier) fromFile

/-! ## Syntax model and ImportExtractor (src/extractor.ts)

The Babel syntax tree is modelled by the fragment the extractor inspects.
The parser is configured with `createImportExpressions: true`, so a
`import("x")` expression is an `ImportExpression` node (`Expr.importEx`);
the `CallExpression`-with-`import`-callee form of older Babel versions is
kept as `Expr.call1 Expr.importKwd _`. Calls are modelled with zero or one
argument (the extractor only ever inspects `arguments[0]`), arrow/function
bodies either are an expression or a block whose interior expressions are
gathered in one tree, and statements carry the expressions they contain. -/

/-- Expression nodes relevant to import extraction. -/
inductive Expr where
  | ident (name : String)
  | strLit (value : String)
  | importKwd
  | importEx (arg : Expr) (line : Nat)
  | member (obj : Expr) (prop : String)
  | call0 (callee : Expr) (line : Nat)
  | call1 (callee : Expr) (arg : Expr) (line : Nat)
  | arrowE (body : Expr)
  | arrowB (body : Expr)
  | exprOther
deriving DecidableEq

/-- One specifier of a static `ImportDeclaration`. -/
inductive ImportSpec where
  | named (importedName : String)
  | defaultSpec (localName : String)
  | namespaceSpec (localName : String)
deriving DecidableEq

/-- Statement nodes relevant to import/export extraction.
`exportNamed` covers `export { l as e }` with and without a source;
`exportVar` is `export const n = e`; default exports are split by the
shape of the exported declaration (identifier vs anything else), which is
all `extractExports` distinguishes for the forms modelled here. -/
inductive Stmt where
  | importDecl (source : String) (specs : List ImportSpec) (line : Nat)
  | exportNamed (source : Option String) (specs : List (String × String))
  | exportVar (name : String) (init : Expr)
  | exportDefaultIdent (name : String)
  | exportDefaultOther (e : Expr)
  | varDecl (name : String) (init : Expr)
  | exprStmt (e : Expr)
deriving DecidableEq

/-- A parsed file: the program's statement list. -/
abbrev Ast := List Stmt

/-- `ImportType` (src/types.ts). -/
inductive ImportType where
  | staticI
  | dynamicI
  | lazyI
  | requireI
deriving DecidableEq

/-- The `kind` field of an `Import` (src/types.ts). -/
inductive ImportKind where
  | named
  | defaultK
  | namespaceK
deriving DecidableEq

/-- `Import` (src/types.ts). `specifiers`/`kind` are `none` exactly when
the extractor does not set the optional field (dynamic, lazy and require
records). Columns are modelled as 0 and the display-only `raw` field is
omitted; neither takes part in any algorithm. -/
structure Import where
  module : String
  type : ImportType
  line : Nat
  column : Nat
  specifiers : Option (List String)
  kind : Option ImportKind
  resolvedPath : Option String
deriving DecidableEq

/-- `Export` (src/types.ts). -/
structure Export where
  name : String
  localName : String
  kind : ImportKind
deriving DecidableEq

/-- Specifier fold of `extractStaticImports`: collect the bound names and
let the last specifier decide the record's `kind` (the loop overwrites
`kind` on every iteration; it stays `default` for a specifier-free
side-effect import). -/
def staticSpecFold (specs : List ImportSpec) : List String × ImportKind :=
  specs.foldl
    (fun acc s =>
      match s with
      | .named importedName => (acc.1 ++ [importedName], ImportKind.named)
      | .defaultSpec localName => (acc.1 ++ [localName], ImportKind.defaultK)
      | .namespaceSpec localName => (acc.1 ++ [localName], ImportKind.namespaceK))
    ([], ImportKind.defaultK)

/-- `extractStaticImports`: one record per `ImportDeclaration`
(these only occur at statement level). -/
def extractStaticImports (ast : Ast) : List Import :=
  ast.foldr
    (fun s acc =>
      match s with
      | .importDecl source specs line =>
        { module := source, type := .staticI, line := line, column := 0,
          specifiers := some (staticSpecFold specs).1,
          kind := some (staticSpecFold specs).2, resolvedPath := none } :: acc
      | _ => acc) []

/-- The module text taken from `arguments[0]` when it is a string literal,
the empty string otherwise. -/
def argModule : Expr → String
  | .strLit v => v
  | _ => ""

/-- Dynamic-import records contributed by one expression tree, in
pre-order: the `ImportExpression` visitor fires on `importEx` nodes and
the `CallExpression` visitor of `extractDynamicImports` fires on calls
whose callee satisfies `t.isImport` (the legacy form). -/
def dynExpr : Expr → List Import
  | .ident _ => []
  | .strLit _ => []
  | .importKwd => []
  | .importEx a line =>
    { module := argModule a, type := .dynamicI, line := line, column := 0,
      specifiers := none, kind := none, resolvedPath := none } :: dynExpr a
  | .member o _ => dynExpr o
  | .call0 c line =>
    (if c = Expr.importKwd then
      [{ module := "", type := .dynamicI, line := line, column := 0,
         specifiers := none, kind := none, resolvedPath := none }]
     else []) ++ dynExpr c
  | .call1 c a line =>
    (if c = Expr.importKwd then
      [{ module := argModule a, type := .dynamicI, line := line, column := 0,
         specifiers := none, kind := none, resolvedPath := none }]
     else []) ++ dynExpr c ++ dynExpr a
  | .arrowE b => dynExpr b
  | .arrowB b => dynExpr b
  | .exprOther => []

/-- Expressions contained directly in one statement (the children the
Babel traversal descends into). -/
def stmtExprs : Stmt → List Expr
  | .importDecl _ _ _ => []
  | .exportNamed _ _ => []
  | .exportVar _ init => [init]
  | .exportDefaultIdent _ => []
  | .exportDefaultOther e => [e]
  | .varDecl _ init => [init]
  | .exprStmt e => [e]

/-- `extractDynamicImports` over a whole program. -/
def extractDynamicImports (ast : Ast) : List Import :=
  (ast.map (fun s => ((stmtExprs s).map dynExpr).flatten)).flatten

/-- Require records contributed by one expression tree, in pre-order
(`extractRequireCalls`: an identifier callee named `require` with a
string-literal first argument). -/
def reqExpr : Expr → List Import
  | .ident _ => []
  | .strLit _ => []
  | .importKwd => []
  | .importEx a _ => reqExpr a
  | .member o _ => reqExpr o
  | .call0 c _ => reqExpr c
  | .call1 c a line =>
    (match c, a with
     | .ident "require", .strLit m =>
       [{ module := m, type := .requireI, line := line, column := 0,
          specifiers := none, kind := none, resolvedPath := none }]
     | _, _ => []) ++ reqExpr c ++ reqExpr a
  | .arrowE b => reqExpr b
  | .arrowB b => reqExpr b
  | .exprOther => []

/-- `extractRequireCalls` over a whole program. -/
def extractRequireCalls (ast : Ast) : List Import :=
  (ast.map (fun s => ((stmtExprs s).map reqExpr).flatten)).flatten

/-- The string-literal modules of `CallExpression`s with `isImport`
callees inside a block body, in traversal order. The block branch of
`extractLazyImports` overwrites `module` on every match, so the last
element wins. `ImportExpression` nodes do not satisfy the
`CallExpression` visitor and are skipped, faithfully to the source
running against a parser configured with `createImportExpressions`. -/
def importCallStrings : Expr → List String
  | .ident _ => []
  | .strLit _ => []
  | .importKwd => []
  | .importEx a _ => importCallStrings a
  | .member o _ => importCallStrings o
  | .call0 c _ => importCallStrings c
  | .call1 c a _ =>
    (match c, a with
     | .importKwd, .strLit m => [m]
     | _, _ => []) ++ importCallStrings c ++ importCallStrings a
  | .arrowE b => importCallStrings b
  | .arrowB b => importCallStrings b
  | .exprOther => []

/-- The `module` text `extractLazyImports` recovers from a lazy-wrapper
callback argument: for an arrow/function whose body is a plain
`CallExpression` with an `import` callee, the string-literal argument;
for a block body, the last `import` call found by the inner traversal;
otherwise the empty string. (`isCallExpression` is false on the
`ImportExpression` nodes this repository's parser produces.) -/
def lazyCallbackModule (callback : Expr) : String :=
  match callback with
  | .arrowE (.call1 .importKwd (.strLit m) _) => m
  | .arrowE _ => ""
  | .arrowB body => (importCallStrings body).getLastD ""
  | _ => ""

/-- Lazy records contributed by one expression tree, in pre-order
(`extractLazyImports`): `React.lazy(cb)` — the object must be the
identifier `React` — and `dynamic(...)`/`loadable(...)` identifier calls.
A record is pushed only when a non-empty module string was recovered. -/
def lazyExpr : Expr → List Import
  | .ident _ => []
  | .strLit _ => []
  | .importKwd => []
  | .importEx a _ => lazyExpr a
  | .member o _ => lazyExpr o
  | .call0 c _ => lazyExpr c
  | .call1 c a line =>
    (match c with
     | .member (.ident obj) prop =>
       if obj = "React" ∧ prop = "lazy" then
         let m := lazyCallbackModule a
         if m ≠ "" then
           [{ module := m, type := .lazyI, line := line, column := 0,
              specifiers := none, kind := none, resolvedPath := none }]
         else []
       else []
     | .ident nm =>
       if nm = "dynamic" ∨ nm = "loadable" then
         let m :=
           match a with
           | .arrowE (.call1 .importKwd (.strLit v) _) => v
           | .arrowB _ => ""
           | .call1 .importKwd (.strLit v) _ => v
           | _ => ""
         if m ≠ "" then
           [{ module := m, type := .lazyI, line := line, column := 0,
              specifiers := none, kind := none, resolvedPath := none }]
         else []
       else []
     | _ => []) ++ lazyExpr c ++ lazyExpr a
  | .arrowE b => lazyExpr b
  | .arrowB b => lazyExpr b
  | .exprOther => []

/-- `extractLazyImports` over a whole program. -/
def extractLazyImports (ast : Ast) : List Import :=
  (ast.map (fun s => ((stmtExprs s).map lazyExpr).flatten)).flatten

/-- `extractExports`: export records in statement order. Re-export and
local `export { … }` specifiers produce identical records (the `Export`
type carries no source); `export const n = …` records `n` under both
names; a default export records `default` with the local identifier
name when the exported declaration is an identifier. -/
def extractExports (ast : Ast) : List Export :=
  ast.foldr
    (fun s acc =>
      (match s with
       | .exportNamed _ specs =>
         specs.map fun p => { name := p.2, localName := p.1, kind := ImportKind.named }
       | .exportVar n _ => [{ name := n, localName := n, kind := ImportKind.named }]
       | .exportDefaultIdent n =>
         [{ name := "default", localName := n, kind := ImportKind.defaultK }]
       | .exportDefaultOther _ =>
         [{ name := "default", localName := "default", kind := ImportKind.defaultK }]
       | _ => []) ++ acc) []

/-- `FileImports` (src/types.ts); the `file` field, populated from the
absent `loc.filename`, is the constant `unknown` and is omitted. -/
structure FileImports where
  staticImps : List Import
  dynamicImps : List Import
  lazyImps : List Import
  requireImps : List Import
deriving DecidableEq

/-- The four detection flags of `DetectorOptions` after the constructor's
`!== false` defaulting. -/
structure DetectFlags where
  detectStatic : Bool
  detectDynamic : Bool
  detectLazy : Bool
  detectRequire : Bool

/-- All four flags on (the defaults, and what `getAllImports` uses). -/
def allFlags : DetectFlags := ⟨true, true, true, true⟩

/-- `ImportExtractor.extractAll`. -/
def extractAll (ast : Ast) (flags : DetectFlags) : FileImports where
  staticImps := if flags.detectStatic then extractStaticImports ast else []
  dynamicImps := if flags.detectDynamic then extractDynamicImports ast else []
  lazyImps := if flags.detectLazy then extractLazyImports ast else []
  requireImps := if flags.detectRequire then extractRequireCalls ast else []

/-- `ImportExtractor.getAllImports`: every style, flattened in the fixed
static/dynamic/lazy/require order. -/
def getAllImports (ast : Ast) : List Import :=
  let fi := extractAll ast allFlags
  fi.staticImps ++ fi.dynamicImps ++ fi.lazyImps ++ fi.requireImps

/-! ## ImportAnalyzer (src/analyzer.ts) -/

/-- `CodeParser.parseFile` through the analyzer's per-file `try`: `none`
when the file is missing/unreadable or its source fails to parse. -/
def parseFile (fs : FileSys Ast) (p : String) : Option Ast :=
  (fs.entries.find? (fun e => decide (e.fst = p))).bind (fun e => e.snd)

/-- The `.replace(/\.(js|jsx|ts|tsx)$/, '')` strip used by the
name-matching branches of `filterImportsByModule`. -/
def stripScriptExt (s : String) : String :=
  match [".js", ".jsx", ".ts", ".tsx"].find? (fun e => endsWithS s e) with
  | some e => ⟨s.data.take (s.data.length - e.data.length)⟩
  | none => s

/-- `ImportAnalyzer.filterImportsByModule`: resolve each import (an
unresolvable one is dropped), store the resolution on the record, then
match against the path target when one is set, otherwise against the
module name (exact specifier, bound-name membership, or extension-stripped
basename of the resolved path or raw specifier), otherwise accept. -/
def filterImportsByModule (fs : FileSys Ast) (cfg : ResolverCfg) (imports : List Import)
    (moduleName : Option String) (filePath : String) (targetPath : Option String) :
    List Import :=
  imports.filterMap fun imp =>
    match resolveImport fs cfg imp.module filePath with
    | none => none
    | some resolved =>
      let imp' := { imp with resolvedPath := some resolved }
      match targetPath with
      | some tp => if pathsMatch resolved tp then some imp' else none
      | none =>
        match moduleName with
        | none => some imp'
        | some mn =>
          if imp.module = mn then some imp'
          else if (match imp.specifiers with
                   | some l => decide (mn ∈ l)
                   | none => false) then some imp'
          else if stripScriptExt (basename resolved) = mn then some imp'
          else if stripScriptExt (basename imp.module) = mn then some imp'
          else none

/-- Result of `ImportAnalyzer.isBarrelForModule`. -/
structure BarrelCheck where
  isBarrel : Bool
  exportedNames : List String
deriving DecidableEq

/-- `ImportAnalyzer.isBarrelForModule`: find the first import resolving to
the target, then collect every export forwarding it — a `default` export
when the import's `kind` is `default`, an export whose local name is
among the import's specifiers, or (for a `default`-kind import) an
export whose local name equals the first specifier. -/
def isBarrelForModule (fs : FileSys Ast) (cfg : ResolverCfg)
    (barrelFilePath targetModulePath : String) : BarrelCheck :=
  match parseFile fs barrelFilePath with
  | none => ⟨false, []⟩
  | some ast =>
    let imports := getAllImports ast
    let exports := extractExports ast
    match imports.find? (fun imp =>
        match resolveImport fs cfg imp.module barrelFilePath with
        | some r => pathsMatch r targetModulePath
        | none => false) with
    | none => ⟨false, []⟩
    | some ti =>
      let names := exports.foldl
        (fun acc exp =>
          if ti.kind = some ImportKind.defaultK ∧ exp.name = "default" then
            acc ++ ["default"]
          else if (match ti.specifiers with
                   | some l => decide (exp.localName ∈ l)
                   | none => false) then
            acc ++ [exp.name]
          else if (decide (ti.kind = some ImportKind.defaultK) &&
              (match ti.specifiers with
               | some (h :: _) => decide (exp.localName = h)
               | _ => false)) = true then
            acc ++ [exp.name]
          else acc) []
      ⟨decide (names ≠ []), names⟩

/-- `ImporterResult` (src/types.ts). -/
structure ImporterResult where
  file : String
  imports : List Import
deriving DecidableEq

/-- The per-import match test of `findBarrelConsumers`: an import without
a `specifiers` field is accepted outright; otherwise some re-exported name
must be among the specifiers, or be `default` while the import's kind is
`default`. -/
def consumerMatch (exportedNames : List String) (imp : Import) : Bool :=
  match imp.specifiers with
  | none => true
  | some l =>
    exportedNames.any fun n =>
      decide (n ∈ l) || (decide (n = "default") && decide (imp.kind = some ImportKind.defaultK))

/-- The `barrelImports` filter of `findBarrelConsumers`: the imports of
one consumer candidate that resolve to the barrel under `pathsMatch`. -/
def barrelImportsOf (fs : FileSys Ast) (cfg : ResolverCfg)
    (barrelFilePath filePath : String) (ast : Ast) : List Import :=
  (getAllImports ast).filter fun imp =>
    match resolveImport fs cfg imp.module filePath with
    | some r => pathsMatch r barrelFilePath
    | none => false

/-- The `matchingImports` filter of `findBarrelConsumers`. -/
def matchingOf (fs : FileSys Ast) (cfg : ResolverCfg)
    (barrelFilePath : String) (exportedNames : List String) (filePath : String)
    (ast : Ast) : List Import :=
  (barrelImportsOf fs cfg barrelFilePath filePath ast).filter (consumerMatch exportedNames)

/-- One file's contribution to `findBarrelConsumers`: skip the barrel
itself and unparseable files; keep the imports that resolve to the barrel
(by `pathsMatch`) and survive `consumerMatch`. -/
def consumerRecord (fs : FileSys Ast) (cfg : ResolverCfg)
    (barrelFilePath : String) (exportedNames : List String) (filePath : String) :
    Option ImporterResult :=
  if filePath = barrelFilePath then none
  else
    match parseFile fs filePath with
    | none => none
    | some ast =>
      if barrelImportsOf fs cfg barrelFilePath filePath ast ≠ [] then
        if matchingOf fs cfg barrelFilePath exportedNames filePath ast ≠ [] then
          some ⟨filePath, matchingOf fs cfg barrelFilePath exportedNames filePath ast⟩
        else none
      else none

/-- `ImportAnalyzer.findBarrelConsumers`: a no-op on an already visited
barrel, otherwise mark it visited and walk the (re-enumerated, identical)
corpus for consumers. Returns the consumer list and the updated visited
set. -/
def findBarrelConsumers (fs : FileSys Ast) (cfg : ResolverCfg) (files : List String)
    (barrelFilePath : String) (exportedNames : List String) (visited : List String) :
    List ImporterResult × List String :=
  if barrelFilePath ∈ visited then ([], visited)
  else
    (files.filterMap (consumerRecord fs cfg barrelFilePath exportedNames),
     barrelFilePath :: visited)

/-- The merge of one barrel consumer into the running result list: push
its imports onto the first existing record with the same file, else
append the record. -/
def addConsumer : List ImporterResult → ImporterResult → List ImporterResult
  | [], c => [c]
  | r :: rs, c =>
    if r.file = c.file then { r with imports := r.imports ++ c.imports } :: rs
    else r :: addConsumer rs c

/-- Mutable state of the `findFilesImporting` loop. -/
structure SearchState where
  results : List ImporterResult
  visited : List String

/-- The `matchingImports` of one enumerated file in the
`findFilesImporting` loop. -/
def directMatches (fs : FileSys Ast) (cfg : ResolverCfg) (moduleName : Option String)
    (targetPath : Option String) (filePath : String) (ast : Ast) : List Import :=
  filterImportsByModule fs cfg (getAllImports ast) moduleName filePath targetPath

/-- The body of the `findFilesImporting` loop for one enumerated file:
parse (a failure is caught and skipped), filter the imports, and on a
match push the record and — when a path target is set and the file
qualifies as a barrel for it — immediately merge its barrel consumers. -/
def processOneFile (fs : FileSys Ast) (cfg : ResolverCfg) (moduleName : Option String)
    (targetPath : Option String) (files : List String) (st : SearchState)
    (filePath : String) : SearchState :=
  match parseFile fs filePath with
  | none => st
  | some ast =>
    if directMatches fs cfg moduleName targetPath filePath ast = [] then st
    else
      match targetPath with
      | none =>
        ⟨st.results ++ [⟨filePath, directMatches fs cfg moduleName targetPath filePath ast⟩],
         st.visited⟩
      | some tp =>
        if (isBarrelForModule fs cfg filePath tp).isBarrel then
          ⟨(findBarrelConsumers fs cfg files filePath
              (isBarrelForModule fs cfg filePath tp).exportedNames st.visited).1.foldl
            addConsumer
            (st.results ++
              [⟨filePath, directMatches fs cfg moduleName targetPath filePath ast⟩]),
           (findBarrelConsumers fs cfg files filePath
              (isBarrelForModule fs cfg filePath tp).exportedNames st.visited).2⟩
        else
          ⟨st.results ++
            [⟨filePath, directMatches fs cfg moduleName targetPath filePath ast⟩],
           st.visited⟩

/-- The `findFilesImporting` loop over an enumerated file list. -/
def searchGo (fs : FileSys Ast) (cfg : ResolverCfg) (moduleName : Option String)
    (targetPath : Option String) (files : List String) (st : SearchState)
    (todo : List String) : SearchState :=
  todo.foldl (processOneFile fs cfg moduleName targetPath files) st

/-- `ImportAnalyzer.resolveTargetPath`: absolute-ise the configured
`modulePath` against the working directory, use it directly when it
already carries an extension, otherwise resolve it (with the search root
standing in as the containing file). -/
def resolveTargetPath (fs : FileSys Ast) (cfg : ResolverCfg)
    (modulePath : Option String) (searchPath : String) : Option String :=
  match modulePath with
  | none => none
  | some mp =>
    let absolutePath := if isAbsolutePath mp then mp else pathResolve cfg.cwd mp
    if extname absolutePath ≠ "" then some absolutePath
    else resolveImport fs cfg absolutePath searchPath

/-- `ImportAnalyzer.findFilesImporting`: enumeration failure is rethrown
as the operation's error; otherwise the corpus is scanned once,
barrel-tracing inline (the consumer walk re-enumerates the same corpus,
so it receives the same file list). -/
def findFilesImporting (fs : FileSys Ast) (cfg : ResolverCfg) (moduleName : Option String)
    (modulePath : Option String) (searchPath : String)
    (enumeration : Except String (List String)) : Except String (List ImporterResult) :=
  match enumeration with
  | .error e => .error ("Failed to find files importing: " ++ e)
  | .ok files =>
    let targetPath := resolveTargetPath fs cfg modulePath searchPath
    .ok (searchGo fs cfg moduleName targetPath files ⟨[], []⟩ files).results

/-- The result list of a successful search (`[]` for the error case,
which the statements below always exclude or handle separately). -/
def okResults (r : Except String (List ImporterResult)) : List ImporterResult :=
  match r with
  | .ok rs => rs
  | .error _ => []

/-- `ProjectAnalysis.summary` (src/types.ts). -/
structure AnalysisSummary where
  staticN : Nat
  dynamicN : Nat
  lazyN : Nat
  requireN : Nat
deriving DecidableEq

/-- `ProjectAnalysis` (src/types.ts); the `files` record is modelled as
the association list in JavaScript-object key order. -/
structure ProjectAnalysis where
  totalFiles : Nat
  totalImports : Nat
  files : List (String × FileImports)
  summary : AnalysisSummary
deriving DecidableEq

/-- JavaScript object assignment `filesMap[filePath] = fileImports`:
replace the value of an existing key in place, else append. -/
def upsert : List (String × FileImports) → String → FileImports → List (String × FileImports)
  | [], k, v => [(k, v)]
  | (k', v') :: rest, k, v =>
    if k' = k then (k, v) :: rest else (k', v') :: upsert rest k v

/-- Accumulator of the `analyzeProject` loop. -/
structure AnalyzeState where
  filesMap : List (String × FileImports)
  totalStatic : Nat
  totalDynamic : Nat
  totalLazy : Nat
  totalRequire : Nat

/-- The body of the `analyzeProject` loop for one file. -/
def analyzeOneFile (fs : FileSys Ast) (flags : DetectFlags) (st : AnalyzeState)
    (filePath : String) : AnalyzeState :=
  match parseFile fs filePath with
  | none => st
  | some ast =>
    let fi := extractAll ast flags
    { filesMap := upsert st.filesMap filePath fi,
      totalStatic := st.totalStatic + fi.staticImps.length,
      totalDynamic := st.totalDynamic + fi.dynamicImps.length,
      totalLazy := st.totalLazy + fi.lazyImps.length,
      totalRequire := st.totalRequire + fi.requireImps.length }

/-- `ImportAnalyzer.analyzeProject` over a successfully enumerated file
list. -/
def analyzeProject (fs : FileSys Ast) (flags : DetectFlags) (files : List String) :
    ProjectAnalysis :=
  let st := files.foldl (analyzeOneFile fs flags) ⟨[], 0, 0, 0, 0⟩
  { totalFiles := st.filesMap.length,
    totalImports := st.totalStatic + st.totalDynamic + st.totalLazy + st.totalRequire,
    files := st.filesMap,
    summary := ⟨st.totalStatic, st.totalDynamic, st.totalLazy, st.totalRequire⟩ }

/-- Modelled from the spec (sections 4.4 and 5), for comparison with the
source's `findFilesImporting`: the direct-match pass completes over the
whole corpus first, and only then is the Barrel Tracer run on each direct
match, appending each barrel's consumers afterwards. The missing source
here is nothing — this definition intentionally follows the
specification's wording instead of the code, to settle the ordering
claim. -/
def specOrderedSearch (fs : FileSys Ast) (cfg : ResolverCfg) (moduleName : Option String)
    (targetPath : Option String) (files : List String) : List ImporterResult :=
  let direct := files.filterMap fun filePath =>
    match parseFile fs filePath with
    | none => none
    | some ast =>
      if directMatches fs cfg moduleName targetPath filePath ast = [] then none
      else
        some (ImporterResult.mk filePath
          (directMatches fs cfg moduleName targetPath filePath ast))
  match targetPath with
  | none => direct
  | some tp =>
    (direct.foldl
      (fun (acc : List ImporterResult × List String) r =>
        let bc := isBarrelForModule fs cfg r.file tp
        if bc.isBarrel then
          let cs := findBarrelConsumers fs cfg files r.file bc.exportedNames acc.2
          (cs.1.foldl addConsumer acc.1, cs.2)
        else acc)
      (direct, [])).1

/-! ## Concrete corpora used by the claim theorems -/

/-- A resolver configured with the default extension list, no `baseUrl`
and a fixed working directory. -/
def defaultCfg : ResolverCfg := ⟨comparisonExtensions, none, "/cwd"⟩

/-- A resolver configured with the single extension `.ts`. -/
def tsCfg : ResolverCfg := ⟨[".ts"], none, "/cwd"⟩

/-- Corpus for C1: an app file and a sibling `Test.ts`. -/
def fsC1 : FileSys Ast := ⟨[("/src/App.tsx", some []), ("/src/Test.ts", some [])]⟩

/-- Candidate file for C2: a pure side-effect import of the target plus a
default export of an unrelated local binding. -/
def astC2 : Ast := [.importDecl "./t/Target" [] 1, .exportDefaultIdent "foo"]

/-- Corpus for C2. -/
def fsC2 : FileSys Ast := ⟨[("/r/c.ts", some astC2), ("/r/t/Target.ts", some [])]⟩

/-- Source shape `const binder = alias.lazy(() => import("./Bar"))` as the
repository's parser (with `createImportExpressions`) produces it. -/
def astAliasedLazy (al binder : String) : Ast :=
  [.varDecl binder
    (.call1 (.member (.ident al) "lazy") (.arrowE (.importEx (.strLit "./Bar") 5)) 5)]

/-- Source shape `const binder = dynamic(() => import("./Bar"))`. -/
def astDynamicLazy (binder : String) : Ast :=
  [.varDecl binder
    (.call1 (.ident "dynamic") (.arrowE (.importEx (.strLit "./Bar") 7)) 7)]

/-- Corpus for C4's counterexample: a barrel and a file importing it with
a namespace import (`import * as NS from "../u"`). -/
def fsC4 : FileSys Ast :=
  ⟨[("/r/a/ns.ts", some [.importDecl "../u" [.namespaceSpec "NS"] 1]),
    ("/r/u/index.ts", some [])]⟩

/-- File enumeration for `fsC4`. -/
def filesC4 : List String := ["/r/a/ns.ts", "/r/u/index.ts"]

/-- Corpus for C4's amended-claim witness: a consumer holding a
dynamic-style record of the barrel (one without a `specifiers`
field). -/
def fsC4w : FileSys Ast :=
  ⟨[("/r/a/d.ts", some [.exprStmt (.importEx (.strLit "../u") 3)]),
    ("/r/u/index.ts", some [])]⟩

/-- Corpus for C5: the target `t.ts`, two path-equivalent barrels
`u/index.ts` and `u/index.js` both re-exporting it, and a consumer
`x.ts` that imports `../u`. -/
def fsC5 : FileSys Ast :=
  ⟨[("/r/a/x.ts", some [.importDecl "../u" [.named "X"] 1]),
    ("/r/t.ts", some []),
    ("/r/u/index.js", some [.importDecl "../t" [.named "X"] 1, .exportNamed none [("X", "X")]]),
    ("/r/u/index.ts", some [.importDecl "../t" [.named "X"] 1, .exportNamed none [("X", "X")]])]⟩

/-- Sorted enumeration of `fsC5`. -/
def filesC5 : List String := ["/r/a/x.ts", "/r/t.ts", "/r/u/index.js", "/r/u/index.ts"]

/-- Corpus for C6: a barrel early in enumeration order, a consumer of the
barrel, and a direct importer late in enumeration order. -/
def fsC6 : FileSys Ast :=
  ⟨[("/r/a/c.ts", some [.importDecl "../b" [.named "X"] 1]),
    ("/r/b/index.ts", some [.importDecl "../t" [.named "X"] 1, .exportNamed none [("X", "X")]]),
    ("/r/d/z.ts", some [.importDecl "../t" [.named "X"] 1]),
    ("/r/t.ts", some [])]⟩

/-- Sorted enumeration of `fsC6`. -/
def filesC6 : List String := ["/r/a/c.ts", "/r/b/index.ts", "/r/d/z.ts", "/r/t.ts"]

/-- Corpus for C9/C10 witnesses: one unparseable file among two good
ones. -/
def fsC9 : FileSys Ast :=
  ⟨[("/r/bad.ts", none),
    ("/r/g/a.ts", some [.importDecl "../t" [.named "X"] 1]),
    ("/r/t.ts", some [])]⟩

/-! ## Claim theorems -/

/-- C1: the claim says a relative specifier (leading `./` or `../`) is
resolved against the directory of the importing file and yields a path
with a configured extension that exists on disk. The code normalises the
specifier — stripping the leading `./` — before testing for the relative
prefixes, so the single-segment relative specifier `./Test` is classified
as a bare module and returned verbatim: `resolveImport("./Test")` from
`/src/App.tsx` returns `Test` although the sibling `/src/Test.ts`
exists — not the sibling's path, carrying no configured extension, and
naming no existing file. -/
theorem c1_relative_specifier_resolution_bug :
    fileExists fsC1 "/src/Test.ts" = true ∧
    resolveImport fsC1 defaultCfg "./Test" "/src/App.tsx" = some "Test" ∧
    "Test" ≠ "/src/Test.ts" ∧
    fileExists fsC1 "Test" = false ∧
    (∀ ext ∈ defaultCfg.extensions, endsWithS "Test" ext = false) := by
  refine ⟨by decide, by decide, by decide, by decide, ?_⟩
  intro ext hm
  fin_cases hm <;> decide

/-- C2: the claim says a candidate that imports the target purely for
side effect (no export ties back to the import's bound names) is reported
with `isBarrel = false` and no re-exported names. In the code a
side-effect `ImportDeclaration` still gets a `default` kind (the loop
initialiser), so any `export default` in the candidate satisfies the
"default import re-exported as default" branch: the candidate below —
`import "./t/Target"; export default foo` — is reported as a barrel for
the target with re-exported names `[default]`, although its one
statement importing the target binds no names and its only export does
not reference it. -/
theorem c2_side_effect_import_reported_as_barrel :
    (getAllImports astC2).map Import.specifiers = [some []] ∧
    extractExports astC2 = [⟨"default", "foo", ImportKind.defaultK⟩] ∧
    resolveImport fsC2 tsCfg "./t/Target" "/r/c.ts" = some "/r/t/Target.ts" ∧
    isBarrelForModule fsC2 tsCfg "/r/c.ts" "/r/t/Target.ts" =
      ⟨true, ["default"]⟩ := by
  decide

/-- C3: a lazy-wrapped import is discovered whatever the local binding
name and whatever identifier the lazy wrapper is bound to: for every
wrapper alias and binder, both the aliased form
`const binder = alias.lazy(() => import("./Bar"))` and the Next-style
`const binder = dynamic(() => import("./Bar"))` yield an extracted
record of `./Bar` (the inner `import()` expression is picked up by the
dynamic-import extractor, so discovery is independent of the wrapper's
name). -/
theorem c3_renamed_lazy_imports_discovered (al binder : String) :
    "./Bar" ∈ (getAllImports (astAliasedLazy al binder)).map Import.module ∧
    "./Bar" ∈ (getAllImports (astDynamicLazy binder)).map Import.module := by
  constructor
  · simp [getAllImports, extractAll, allFlags, astAliasedLazy, extractStaticImports,
      extractDynamicImports, extractLazyImports, extractRequireCalls, stmtExprs,
      dynExpr, lazyExpr, reqExpr, argModule, lazyCallbackModule]
  · simp [getAllImports, extractAll, allFlags, astDynamicLazy, extractStaticImports,
      extractDynamicImports, extractLazyImports, extractRequireCalls, stmtExprs,
      dynExpr, lazyExpr, reqExpr, argModule, lazyCallbackModule]

/-- C4, counterexample: the claim counts a namespace import of the barrel
(an import the spec groups under "no bound names") as a conservative
match. In the corpus below the consumer's only import is
`import * as NS from "../u"`, which resolves to the barrel, yet
`findBarrelConsumers` returns no consumer at all: a static namespace
record always carries a `specifiers` array (here `[NS]`), so it never
takes the conservative `!imp.specifiers` branch and fails the
name-intersection test against `['X']`. -/
theorem c4_namespace_import_not_conservative :
    (getAllImports [Stmt.importDecl "../u" [.namespaceSpec "NS"] 1]).map
      (fun i => (i.specifiers, i.kind)) = [(some ["NS"], some ImportKind.namespaceK)] ∧
    resolveImport fsC4 tsCfg "../u" "/r/a/ns.ts" = some "/r/u/index.ts" ∧
    pathsMatch "/r/u/index.ts" "/r/u/index.ts" = true ∧
    (findBarrelConsumers fsC4 tsCfg filesC4 "/r/u/index.ts" ["X"] []).1 = [] := by
  decide

/-- C4, amended: in the Consumer Graph Walker an import lacking the
`specifiers` field altogether (dynamic, lazy and require records) is
conservatively counted as a match, while an import carrying a
`specifiers` list — which every static import does, namespace and
side-effect imports included — matches only if some re-exported name is
among the bound names, or `default` is re-exported and the import's
kind is `default`. Part one: every emitted import resolves to the
barrel and satisfies exactly that test. Part two: a specifier-free
record of the barrel always makes its file a consumer. -/
theorem c4_consumer_matching_amended (fs : FileSys Ast) (cfg : ResolverCfg)
    (files : List String) (barrel : String) (names : List String) (visited : List String) :
    (∀ r ∈ (findBarrelConsumers fs cfg files barrel names visited).1,
      ∀ imp ∈ r.imports,
        (∃ res, resolveImport fs cfg imp.module r.file = some res ∧
          pathsMatch res barrel = true) ∧
        (imp.specifiers = none ∨
          ∃ l, imp.specifiers = some l ∧
            ∃ n ∈ names, n ∈ l ∨ (n = "default" ∧ imp.kind = some ImportKind.defaultK))) ∧
    (∀ f ∈ files, ¬ f = barrel → ¬ barrel ∈ visited →
      ∀ ast, parseFile fs f = some ast →
      ∀ imp ∈ getAllImports ast,
        imp.specifiers = none →
        (∃ res, resolveImport fs cfg imp.module f = some res ∧ pathsMatch res barrel = true) →
      ∃ r ∈ (findBarrelConsumers fs cfg files barrel names visited).1, r.file = f) := by
  constructor
  · intro r hr imp hi
    unfold findBarrelConsumers at hr
    by_cases hv : barrel ∈ visited
    · simp [hv] at hr
    · rw [if_neg hv] at hr
      obtain ⟨f, hf, hcr⟩ := List.mem_filterMap.mp hr
      unfold consumerRecord at hcr
      split at hcr
      · cases hcr
      · split at hcr
        · cases hcr
        · rename_i ast hpf
          split at hcr
          · split at hcr
            · cases hcr
              have h2 := List.mem_filter.mp
                (show imp ∈ matchingOf fs cfg barrel names f ast from hi)
              have hBImem := List.mem_filter.mp h2.1
              constructor
              · have h3 := hBImem.2
                revert h3
                cases hres : resolveImport fs cfg imp.module f with
                | none => simp
                | some res =>
                  intro h3
                  exact ⟨res, rfl, by simpa using h3⟩
              · have h4 := h2.2
                unfold consumerMatch at h4
                cases hs : imp.specifiers with
                | none => exact Or.inl rfl
                | some l =>
                  rw [hs] at h4
                  right
                  refine ⟨l, rfl, ?_⟩
                  obtain ⟨n, hn, hp⟩ := List.any_eq_true.mp h4
                  refine ⟨n, hn, ?_⟩
                  simp only [Bool.or_eq_true, Bool.and_eq_true, decide_eq_true_eq] at hp
                  exact hp
            · cases hcr
          · cases hcr
  · intro f hf hfb hv ast hpf imp hmem hspec hres
    unfold findBarrelConsumers
    rw [if_neg hv]
    have hp1 : (match resolveImport fs cfg imp.module f with
        | some r => pathsMatch r barrel
        | none => false) = true := by
      obtain ⟨res, h1, h2⟩ := hres
      rw [h1]; exact h2
    have hBI : imp ∈ barrelImportsOf fs cfg barrel f ast := List.mem_filter.mpr ⟨hmem, hp1⟩
    have hcm : consumerMatch names imp = true := by
      unfold consumerMatch; rw [hspec]
    have hM : imp ∈ matchingOf fs cfg barrel names f ast := List.mem_filter.mpr ⟨hBI, hcm⟩
    refine ⟨⟨f, matchingOf fs cfg barrel names f ast⟩,
      List.mem_filterMap.mpr ⟨f, hf, ?_⟩, rfl⟩
    unfold consumerRecord
    rw [if_neg hfb, hpf]
    dsimp only
    rw [if_pos (List.ne_nil_of_mem hBI), if_pos (List.ne_nil_of_mem hM)]

/-- C4, witness: the amended theorem applied to a concrete corpus in
which the consumer holds a dynamic import (no `specifiers` field) of the
barrel — it is conservatively counted as a consumer. -/
theorem c4_consumer_matching_amended_witness :
    ∃ r ∈ (findBarrelConsumers fsC4w tsCfg ["/r/a/d.ts", "/r/u/index.ts"]
      "/r/u/index.ts" ["X"] []).1, r.file = "/r/a/d.ts" :=
  (c4_consumer_matching_amended fsC4w tsCfg ["/r/a/d.ts", "/r/u/index.ts"]
      "/r/u/index.ts" ["X"] []).2
    "/r/a/d.ts" (by decide) (by decide) (by decide)
    [.exprStmt (.importEx (.strLit "../u") 3)] (by decide)
    ⟨"../u", .dynamicI, 3, 0, none, none, none⟩ (by decide) (by decide)
    ⟨"/r/u/index.ts", by decide, by decide⟩

/-! ### Merge lemmas shared by the orchestrator claims -/

/-- Merging one consumer leaves the result files unchanged when its file
already has a record, and appends its file otherwise. -/
theorem addConsumer_map_file (rs : List ImporterResult) (c : ImporterResult) :
    (addConsumer rs c).map ImporterResult.file =
      if c.file ∈ rs.map ImporterResult.file then rs.map ImporterResult.file
      else rs.map ImporterResult.file ++ [c.file] := by
  induction rs with
  | nil => simp [addConsumer]
  | cons r rs ih =>
    by_cases h : r.file = c.file
    · simp [addConsumer, h]
    · simp only [addConsumer, if_neg h, List.map_cons, ih]
      have hiff : (c.file ∈ r.file :: rs.map ImporterResult.file) ↔
          c.file ∈ rs.map ImporterResult.file := by
        constructor
        · intro hm
          rcases List.mem_cons.mp hm with h1 | h1
          · exact absurd h1.symm h
          · exact h1
        · exact fun hm => List.mem_cons_of_mem _ hm
      by_cases hm : c.file ∈ rs.map ImporterResult.file
      · simp [hm, hiff.mpr hm]
      · rw [if_neg hm, if_neg (fun hx => hm (hiff.mp hx))]
        simp

/-- Merging a batch of consumers with pairwise distinct files appends
exactly the not-yet-present files, in order. -/
theorem foldl_addConsumer_map_file (cs rs : List ImporterResult)
    (h : (cs.map ImporterResult.file).Nodup) :
    (cs.foldl addConsumer rs).map ImporterResult.file =
      rs.map ImporterResult.file ++
        (cs.map ImporterResult.file).filter
          (fun p => ¬ p ∈ rs.map ImporterResult.file) := by
  induction cs generalizing rs with
  | nil => simp
  | cons c cs ih =>
    simp only [List.map_cons, List.nodup_cons] at h
    simp only [List.foldl_cons]
    rw [ih _ h.2, addConsumer_map_file]
    by_cases hm : c.file ∈ rs.map ImporterResult.file
    · rw [if_pos hm]
      simp only [List.map_cons, List.filter_cons]
      rw [if_neg (by simp [hm])]
    · rw [if_neg hm]
      have hcong : List.filter (fun p => decide (¬ p ∈ rs.map ImporterResult.file ++ [c.file]))
            (cs.map ImporterResult.file) =
          List.filter (fun p => decide (¬ p ∈ rs.map ImporterResult.file))
            (cs.map ImporterResult.file) := by
        refine List.filter_congr ?_
        intro p hp
        have hne : p ≠ c.file := fun he => h.1 (he ▸ hp)
        simp [List.mem_append, hne]
      rw [hcong]
      simp only [List.map_cons, List.filter_cons]
      rw [if_pos (by simp [hm])]
      simp

/-- A consumer record carries the file it was built from. -/
theorem consumerRecord_file (fs : FileSys Ast) (cfg : ResolverCfg)
    (barrel : String) (names : List String) (f : String) (r : ImporterResult)
    (h : consumerRecord fs cfg barrel names f = some r) : r.file = f := by
  unfold consumerRecord at h
  split at h
  · cases h
  · split at h
    · cases h
    · split at h
      · split at h
        · cases h; rfl
        · cases h
      · cases h

/-- The files of a consumer walk form a sublist of the enumerated
corpus. -/
theorem consumers_map_file_sublist (fs : FileSys Ast) (cfg : ResolverCfg)
    (barrel : String) (names : List String) (files : List String) :
    ((files.filterMap (consumerRecord fs cfg barrel names)).map ImporterResult.file).Sublist
      files := by
  induction files with
  | nil => simp
  | cons f fl ih =>
    rw [List.filterMap_cons]
    cases hc : consumerRecord fs cfg barrel names f with
    | none => exact ih.trans (List.sublist_cons_self f fl)
    | some r =>
      rw [List.map_cons, consumerRecord_file fs cfg barrel names f r hc]
      exact ih.cons₂ f

/-- C5, counterexample: the claim says merged import entries are
deduplicated by (specifier, line, style). In a corpus with two
path-equivalent barrels (`u/index.ts` and `u/index.js`, which
`pathsMatch` identifies after extension stripping) both re-exporting the
target, the consumer `x.ts` is found by both consumer walks and its one
entry — the identical triple `(../u, 1, static)` — is pushed twice into
the same record: no triple-based deduplication happens. -/
theorem c5_import_entries_not_deduplicated :
    (okResults (findFilesImporting fsC5 tsCfg none (some "/r/t.ts") "/r"
        (.ok filesC5))).map
      (fun r => (r.file, r.imports.map fun i => (i.module, i.line, i.type))) =
    [("/r/u/index.js", [("../t", 1, ImportType.staticI)]),
     ("/r/a/x.ts", [("../u", 1, ImportType.staticI), ("../u", 1, ImportType.staticI)]),
     ("/r/u/index.ts", [("../t", 1, ImportType.staticI)])] := by
  decide

/-- C5, amended: merging barrel-traced consumers into the running result
list deduplicates result records by exact file identity — a consumer
whose file already has a record contributes no new record, only files
without one are appended — but the import entries themselves are
concatenated without any deduplication, so an import reachable through
two path-equivalent barrels is counted twice. This theorem proves the
record-level half for every corpus with distinct enumerated files; the
counterexample exhibits the duplicated entry. -/
theorem c5_merge_dedup_amended (fs : FileSys Ast) (cfg : ResolverCfg)
    (files : List String) (barrel : String) (names visited : List String)
    (results : List ImporterResult) (h : files.Nodup) :
    ((findBarrelConsumers fs cfg files barrel names visited).1.foldl addConsumer
        results).map ImporterResult.file =
      results.map ImporterResult.file ++
        ((findBarrelConsumers fs cfg files barrel names visited).1.map
          ImporterResult.file).filter
            (fun p => ¬ p ∈ results.map ImporterResult.file) := by
  have hnd : ((findBarrelConsumers fs cfg files barrel names visited).1.map
      ImporterResult.file).Nodup := by
    unfold findBarrelConsumers
    by_cases hv : barrel ∈ visited
    · simp [hv]
    · rw [if_neg hv]
      exact h.sublist (consumers_map_file_sublist fs cfg barrel names files)
  exact foldl_addConsumer_map_file _ _ hnd

/-- C5, witness: the amended merge equation instantiated on the C5 corpus
with one already-present record. -/
theorem c5_merge_dedup_amended_witness :
    ((findBarrelConsumers fsC5 tsCfg filesC5 "/r/u/index.js" ["X"] []).1.foldl
        addConsumer [⟨"/r/u/index.js", []⟩]).map ImporterResult.file =
      [(⟨"/r/u/index.js", []⟩ : ImporterResult)].map ImporterResult.file ++
        ((findBarrelConsumers fsC5 tsCfg filesC5 "/r/u/index.js" ["X"] []).1.map
          ImporterResult.file).filter
            (fun p =>
              ¬ p ∈ [(⟨"/r/u/index.js", []⟩ : ImporterResult)].map ImporterResult.file) :=
  c5_merge_dedup_amended fsC5 tsCfg filesC5 "/r/u/index.js" ["X"] []
    [⟨"/r/u/index.js", []⟩] (by decide)

/-- C6, counterexample: the claim says all direct matches come first (in
enumeration order) and barrel-derived matches are appended afterwards. On
the corpus below — barrel `b/index.ts` early, its consumer `a/c.ts`, and
the direct importer `d/z.ts` late — the code emits the barrel consumer
`a/c.ts` immediately after the barrel and before the later direct match
`d/z.ts`, while the specification's two-phase order (modelled by
`specOrderedSearch`) puts all direct matches first; the two orders
differ. -/
theorem c6_barrel_consumers_emitted_inline :
    (okResults (findFilesImporting fsC6 tsCfg none (some "/r/t.ts") "/r"
        (.ok filesC6))).map ImporterResult.file =
      ["/r/b/index.ts", "/r/a/c.ts", "/r/d/z.ts"] ∧
    (specOrderedSearch fsC6 tsCfg none (some "/r/t.ts") filesC6).map
        ImporterResult.file =
      ["/r/b/index.ts", "/r/d/z.ts", "/r/a/c.ts"] ∧
    ¬ (okResults (findFilesImporting fsC6 tsCfg none (some "/r/t.ts") "/r"
        (.ok filesC6))).map ImporterResult.file =
      (specOrderedSearch fsC6 tsCfg none (some "/r/t.ts") filesC6).map
        ImporterResult.file := by
  decide

/-- Result files only grow under one merge fold (no record is removed or
reordered). -/
theorem foldl_addConsumer_grows (cs rs : List ImporterResult) :
    (rs.map ImporterResult.file) <+:
      ((cs.foldl addConsumer rs).map ImporterResult.file) := by
  induction cs generalizing rs with
  | nil => exact List.prefix_refl _
  | cons c cs ih =>
    rw [List.foldl_cons]
    refine List.IsPrefix.trans ?_ (ih (addConsumer rs c))
    rw [addConsumer_map_file]
    by_cases hm : c.file ∈ rs.map ImporterResult.file
    · rw [if_pos hm]
    · rw [if_neg hm]; exact List.prefix_append _ _

/-- Processing one file — its direct match and, inline, its barrel
consumers — only extends the result-file sequence. -/
theorem processOneFile_results_grow (fs : FileSys Ast) (cfg : ResolverCfg)
    (mn tp : Option String) (files : List String) (st : SearchState) (f : String) :
    (st.results.map ImporterResult.file) <+:
      ((processOneFile fs cfg mn tp files st f).results.map ImporterResult.file) := by
  unfold processOneFile
  split
  · exact List.prefix_refl _
  · split
    · exact List.prefix_refl _
    · split
      · rw [List.map_append]
        exact List.prefix_append _ _
      · split
        · refine List.IsPrefix.trans ?_ (foldl_addConsumer_grows _ _)
          rw [List.map_append]
          exact List.prefix_append _ _
        · rw [List.map_append]
          exact List.prefix_append _ _

/-- C6, amended: barrel tracing runs inline during the single scan — a
matched file's barrel consumers are merged into the result list as part
of that file's own processing step, before any later file is examined —
so the accumulated result files after any prefix of the enumeration are a
stable prefix of the final output (later files only append new records or
extend existing records' import lists in place); the output is in
discovery order, not "all direct matches first, barrel-derived appended
afterwards". The first conjunct ties `findFilesImporting` to the loop
`searchGo`, the second is the prefix-stability of the loop. -/
theorem c6_inline_barrel_tracing_amended (fs : FileSys Ast) (cfg : ResolverCfg)
    (mn mp : Option String) (sp : String) (files : List String)
    (st : SearchState) (l1 l2 : List String) :
    okResults (findFilesImporting fs cfg mn mp sp (.ok files)) =
      (searchGo fs cfg mn (resolveTargetPath fs cfg mp sp) files ⟨[], []⟩ files).results ∧
    ((searchGo fs cfg mn (resolveTargetPath fs cfg mp sp) files st l1).results.map
        ImporterResult.file) <+:
      ((searchGo fs cfg mn (resolveTargetPath fs cfg mp sp) files st
          (l1 ++ l2)).results.map ImporterResult.file) := by
  constructor
  · rfl
  · unfold searchGo
    rw [List.foldl_append]
    generalize List.foldl
      (processOneFile fs cfg mn (resolveTargetPath fs cfg mp sp) files) st l1 = st1
    induction l2 generalizing st1 with
    | nil => exact List.prefix_refl _
    | cons g gl ih =>
      rw [List.foldl_cons]
      exact List.IsPrefix.trans
        (processOneFile_results_grow fs cfg mn (resolveTargetPath fs cfg mp sp)
          files st1 g) (ih _)


/-! ### String lemmas for the path-equivalence claim -/

theorem foldl_collapse_no_slash (m : List Char) (hm : ∀ c ∈ m, ¬ c = '/') (acc : List Char) :
    m.foldl (fun acc c => if c = '/' ∧ acc.head? = some '/' then acc else c :: acc) acc =
      m.reverse ++ acc := by
  induction m generalizing acc with
  | nil => simp
  | cons c cs ih =>
    have hc : ¬ c = '/' := hm c (List.mem_cons_self c cs)
    rw [List.foldl_cons, if_neg (fun h => hc h.1)]
    rw [ih (fun d hd => hm d (List.mem_cons_of_mem c hd)) (c :: acc)]
    simp

theorem collapseSlashes_append_no_slash (l m : List Char) (hm : ∀ c ∈ m, ¬ c = '/') :
    collapseSlashes (l ++ m) = collapseSlashes l ++ m := by
  unfold collapseSlashes
  rw [List.foldl_append, foldl_collapse_no_slash m hm]
  rw [List.reverse_append, List.reverse_reverse]


theorem endsWithL_append_self (y m : List Char) : endsWithL (y ++ m) m = true := by
  unfold endsWithL
  rw [List.length_append, Nat.add_sub_cancel, List.drop_left]
  simp

theorem take_append_self (y m : List Char) :
    (y ++ m).take ((y ++ m).length - m.length) = y := by
  rw [List.length_append, Nat.add_sub_cancel, List.take_left]

theorem drop_append_add (y m : List Char) (i : Nat) :
    (y ++ m).drop (y.length + i) = m.drop i := by
  rw [← List.drop_drop, List.drop_left]

theorem endsWithL_append_of_le (y m e : List Char) (h : e.length ≤ m.length) :
    endsWithL (y ++ m) e = endsWithL m e := by
  unfold endsWithL
  rw [List.length_append, Nat.add_sub_assoc h, drop_append_add]

theorem length_le_of_endsWithL (l e : List Char) (h : endsWithL l e = true) :
    e.length ≤ l.length := by
  unfold endsWithL at h
  rw [decide_eq_true_eq] at h
  have := congrArg List.length h
  rw [List.length_drop] at this
  omega

theorem endsWithL_of_endsWithL_le (l e m : List Char)
    (he : endsWithL l e = true) (hm : endsWithL l m = true) (hle : m.length ≤ e.length) :
    endsWithL e m = true := by
  unfold endsWithL at he hm ⊢
  rw [decide_eq_true_eq] at he hm
  rw [decide_eq_true_eq]
  have hel := length_le_of_endsWithL l e (by unfold endsWithL; rw [decide_eq_true_eq]; exact he)
  set k := l.length - e.length with hk
  set i := e.length - m.length with hi
  rw [← he, List.drop_drop]
  have hsum : k + i = l.length - m.length := by omega
  rw [hsum, hm]


theorem stripTake_append (x m : List Char)
    (h1 : m.take 2 ≠ ['.', '/']) (h2 : ∀ c, m.head? = some c → ¬ c = '/') :
    (if (x ++ m).take 2 = ['.', '/'] then (x ++ m).drop 2 else x ++ m) =
      (if x.take 2 = ['.', '/'] then x.drop 2 else x) ++ m := by
  match x with
  | [] =>
    simp only [List.nil_append, List.take_nil, List.drop_nil]
    rw [if_neg h1]
    simp
  | [c] =>
    have hne : ([c] ++ m).take 2 ≠ ['.', '/'] := by
      cases m with
      | nil => simp
      | cons d ds =>
        have hd : ¬ d = '/' := h2 d rfl
        intro heq
        simp only [List.singleton_append] at heq
        have hcd : c = '.' ∧ d = '/' := by simpa using heq
        exact hd hcd.2
    rw [if_neg hne, if_neg (by simp)]
  | c1 :: c2 :: xs =>
    have htake : (c1 :: c2 :: xs ++ m).take 2 = (c1 :: c2 :: xs).take 2 := by simp
    by_cases hp : (c1 :: c2 :: xs).take 2 = ['.', '/']
    · rw [htake, if_pos hp, if_pos hp]
      simp
    · rw [htake, if_neg hp, if_neg hp]


theorem endsWithL_append_of_gt_false (y m e : List Char)
    (hgt : m.length ≤ e.length) (hne : endsWithL e m = false) :
    endsWithL (y ++ m) e = false := by
  cases hE : endsWithL (y ++ m) e with
  | false => rfl
  | true =>
    have h := endsWithL_of_endsWithL_le (y ++ m) e m hE (endsWithL_append_self y m) hgt
    rw [h] at hne
    cases hne

theorem normChars_append_ext (l m : List Char)
    (hchar : ∀ c ∈ m, ¬ c = '\\' ∧ ¬ c = '/')
    (h1 : m.take 2 ≠ ['.', '/']) :
    normChars (l ++ m) = normChars l ++ m := by
  unfold normChars
  rw [List.map_append]
  have hmap : m.map (fun c => if c = '\\' then '/' else c) = m := by
    conv_rhs => rw [← List.map_id m]
    refine List.map_congr_left ?_
    intro c hc
    simp [if_neg (hchar c hc).1]
  rw [hmap]
  rw [collapseSlashes_append_no_slash _ m (fun c hc => (hchar c hc).2)]
  exact stripTake_append _ m h1
    (fun c hc => (hchar c (by
      cases m with
      | nil => cases hc
      | cons d ds =>
        have hcd : c = d := by
          have := hc
          simp only [List.head?_cons, Option.some.injEq] at this
          exact this.symm
        rw [hcd]; exact List.mem_cons_self d ds)).2)

theorem removeExtAux_no_match (es : List String) (l : List Char)
    (h : ∀ e ∈ es, endsWithL l e.data = false) :
    removeExtAux es l = l := by
  induction es with
  | nil => rfl
  | cons e es ih =>
    rw [removeExtAux, h e (List.mem_cons_self e es), if_neg (by decide)]
    exact ih (fun e' he' => h e' (List.mem_cons_of_mem e he'))

theorem removeExtAux_strip (n : List Char) (ext : String)
    (hmem : ext ∈ comparisonExtensions) :
    removeExtAux comparisonExtensions (n ++ ext.data) = n := by
  fin_cases hmem
  · rw [show comparisonExtensions = [".ts", ".tsx", ".js", ".jsx", ".mjs", ".cjs"] from rfl]
    rw [removeExtAux, if_pos (endsWithL_append_self n _)]
    exact take_append_self n _
  · rw [show comparisonExtensions = [".ts", ".tsx", ".js", ".jsx", ".mjs", ".cjs"] from rfl]
    rw [removeExtAux, endsWithL_append_of_le n _ _ (by decide), if_neg (by decide)]
    rw [removeExtAux, if_pos (endsWithL_append_self n _)]
    exact take_append_self n _
  · rw [show comparisonExtensions = [".ts", ".tsx", ".js", ".jsx", ".mjs", ".cjs"] from rfl]
    rw [removeExtAux, endsWithL_append_of_le n _ _ (by decide), if_neg (by decide)]
    rw [removeExtAux, endsWithL_append_of_gt_false n _ _ (by decide) (by decide),
      if_neg (by decide)]
    rw [removeExtAux, if_pos (endsWithL_append_self n _)]
    exact take_append_self n _
  · rw [show comparisonExtensions = [".ts", ".tsx", ".js", ".jsx", ".mjs", ".cjs"] from rfl]
    rw [removeExtAux, endsWithL_append_of_le n _ _ (by decide), if_neg (by decide)]
    rw [removeExtAux, endsWithL_append_of_le n _ _ (by decide), if_neg (by decide)]
    rw [removeExtAux, endsWithL_append_of_le n _ _ (by decide), if_neg (by decide)]
    rw [removeExtAux, if_pos (endsWithL_append_self n _)]
    exact take_append_self n _
  · rw [show comparisonExtensions = [".ts", ".tsx", ".js", ".jsx", ".mjs", ".cjs"] from rfl]
    rw [removeExtAux, endsWithL_append_of_le n _ _ (by decide), if_neg (by decide)]
    rw [removeExtAux, endsWithL_append_of_le n _ _ (by decide), if_neg (by decide)]
    rw [removeExtAux, endsWithL_append_of_le n _ _ (by decide), if_neg (by decide)]
    rw [removeExtAux, endsWithL_append_of_le n _ _ (by decide), if_neg (by decide)]
    rw [removeExtAux, if_pos (endsWithL_append_self n _)]
    exact take_append_self n _
  · rw [show comparisonExtensions = [".ts", ".tsx", ".js", ".jsx", ".mjs", ".cjs"] from rfl]
    rw [removeExtAux, endsWithL_append_of_le n _ _ (by decide), if_neg (by decide)]
    rw [removeExtAux, endsWithL_append_of_le n _ _ (by decide), if_neg (by decide)]
    rw [removeExtAux, endsWithL_append_of_le n _ _ (by decide), if_neg (by decide)]
    rw [removeExtAux, endsWithL_append_of_le n _ _ (by decide), if_neg (by decide)]
    rw [removeExtAux, endsWithL_append_of_le n _ _ (by decide), if_neg (by decide)]
    rw [removeExtAux, if_pos (endsWithL_append_self n _)]
    exact take_append_self n _

theorem c7_conditional_ext (p : String) (ext : String)
    (hmem : ext ∈ comparisonExtensions)
    (hno : ∀ e ∈ comparisonExtensions, endsWithS (normalizePath p) e = false) :
    pathsMatch p (p ++ ext) = true := by
  have hdata : (p ++ ext).data = p.data ++ ext.data := String.data_append p ext
  have hchar : ∀ c ∈ ext.data, ¬ c = '\\' ∧ ¬ c = '/' := by
    fin_cases hmem <;> decide
  have htake : ext.data.take 2 ≠ ['.', '/'] := by
    fin_cases hmem <;> decide
  have hnorm : normChars (p.data ++ ext.data) = normChars p.data ++ ext.data :=
    normChars_append_ext p.data ext.data hchar htake
  have hleft : removeExtension (normalizePath p) = ⟨normChars p.data⟩ := by
    unfold removeExtension normalizePath
    congr 1
    exact removeExtAux_no_match comparisonExtensions (normChars p.data)
      (fun e he => hno e he)
  have hright : removeExtension (normalizePath (p ++ ext)) = ⟨normChars p.data⟩ := by
    unfold removeExtension normalizePath
    rw [hdata, hnorm]
    congr 1
    exact removeExtAux_strip (normChars p.data) ext hmem
  unfold pathsMatch
  rw [hleft, hright]
  simp

/-- C7, counterexample: the claim says `pathsMatch(p, p + ext)` holds for
every path `p` and configured extension `ext`. It fails as soon as `p`
itself already ends in a comparison-list extension: `removeExtension`
strips only one suffix, so `a.ts` reduces to `a` while `a.ts.ts`
reduces to `'a.ts'`. -/
theorem c7_pathsMatch_ext_counterexample :
    ".ts" ∈ defaultCfg.extensions ∧
    pathsMatch "a.ts" ("a.ts" ++ ".ts") = false := by
  decide

/-- C7, amended: `pathsMatch` is reflexive and symmetric, and
`pathsMatch(p, p + ext)` holds for every extension of the built-in
comparison list (which equals the default configured extension list)
provided the normalised `p` does not itself already end in one of those
extensions. -/
theorem c7_pathsMatch_amended :
    (∀ p : String, pathsMatch p p = true) ∧
    (∀ a b : String, pathsMatch a b = pathsMatch b a) ∧
    (∀ p ext : String, ext ∈ comparisonExtensions →
      (∀ e ∈ comparisonExtensions, endsWithS (normalizePath p) e = false) →
      pathsMatch p (p ++ ext) = true) := by
  refine ⟨?_, ?_, ?_⟩
  · intro p
    unfold pathsMatch
    simp
  · intro a b
    unfold pathsMatch
    exact decide_eq_decide.mpr eq_comm
  · exact c7_conditional_ext

/-- C7, witness: the amended statement applied at `p = "a"`,
`ext = ".ts"`. -/
theorem c7_pathsMatch_amended_witness :
    pathsMatch "a" ("a" ++ ".ts") = true :=
  c7_pathsMatch_amended.2.2 "a" ".ts" (by decide) (by decide)

/-! ### Resolution-failure lemmas -/

/-- A successful probe loop returns a value produced from one of its
candidates. -/
theorem firstSome?_exists {α β : Type} (f : α → Option β) (l : List α) (b : β)
    (h : firstSome? f l = some b) : ∃ a ∈ l, f a = some b := by
  induction l with
  | nil => cases h
  | cons a as ih =>
    rw [firstSome?] at h
    cases hfa : f a with
    | some c =>
      rw [hfa] at h
      exact ⟨a, List.mem_cons_self a as, hfa.trans h⟩
    | none =>
      rw [hfa] at h
      obtain ⟨x, hx, hfx⟩ := ih h
      exact ⟨x, List.mem_cons_of_mem a hx, hfx⟩

/-- A path returned by `tryExtensions` exists on disk. -/
theorem tryExtensions_exists (fs : FileSys Ast) (cfg : ResolverCfg) (p r : String)
    (h : tryExtensions fs cfg p = some r) : fileExists fs r = true := by
  unfold tryExtensions at h
  split at h
  · rename_i hc
    cases h
    exact hc.2.2
  · obtain ⟨e, _, hfe⟩ := firstSome?_exists _ _ _ h
    split at hfe
    · rename_i hex
      cases hfe
      exact hex
    · cases hfe

/-- A path returned by `tryIndex` exists on disk. -/
theorem tryIndex_exists (fs : FileSys Ast) (cfg : ResolverCfg) (p r : String)
    (h : tryIndex fs cfg p = some r) : fileExists fs r = true := by
  unfold tryIndex at h
  obtain ⟨e, _, hfe⟩ := firstSome?_exists _ _ _ h
  split at hfe
  · rename_i hex
    cases hfe
    exact hex
  · cases hfe

/-- A path returned by `resolveRelative` exists on disk. -/
theorem resolveRelative_exists (fs : FileSys Ast) (cfg : ResolverCfg) (sp ff r : String)
    (h : resolveRelative fs cfg sp ff = some r) : fileExists fs r = true := by
  unfold resolveRelative at h
  cases he : tryExtensions fs cfg (pathResolve (dirname ff) sp) with
  | some x =>
    rw [he] at h
    simp only [Option.orElse] at h
    cases h
    exact tryExtensions_exists fs cfg _ r he
  | none =>
    rw [he] at h
    simp only [Option.orElse] at h
    exact tryIndex_exists fs cfg _ r h

/-- C8: `resolveImport` never throws — the embedding is total with
`Option` as its failure channel, the source's catch-all arm being
unreachable — and failures surface as the absence value which callers
treat as a non-match: every import record emitted by
`filterImportsByModule` carries a successful resolution (an unresolved
record is filtered out, not an error), and a parent-relative specifier
either resolves to a file that exists on disk or yields `none`. -/
theorem c8_resolution_failure_is_silent_null (fs : FileSys Ast) (cfg : ResolverCfg) (imports : List Import)
    (mn : Option String) (filePath : String) (tp : Option String)
    (sp fromFile : String) :
    (∀ imp ∈ filterImportsByModule fs cfg imports mn filePath tp,
      ∃ res, resolveImport fs cfg imp.module filePath = some res ∧
        imp.resolvedPath = some res) ∧
    (startsWithS (normalizePath sp) "../" = true →
      resolveImport fs cfg sp fromFile = none ∨
      ∃ r, resolveImport fs cfg sp fromFile = some r ∧ fileExists fs r = true) := by
  constructor
  · intro imp hmem
    obtain ⟨imp0, _, heq⟩ := List.mem_filterMap.mp hmem
    cases hres : resolveImport fs cfg imp0.module filePath with
    | none =>
      rw [hres] at heq
      simp at heq
    | some resolved =>
      rw [hres] at heq
      simp only at heq
      have hmods : ∀ i : Import,
          some ({ imp0 with resolvedPath := some resolved } : Import) = some i →
          ∃ res, resolveImport fs cfg i.module filePath = some res ∧
            i.resolvedPath = some res := by
        intro i hi
        have hi' := Option.some.inj hi
        refine ⟨resolved, ?_, ?_⟩
        · rw [← hi']
          exact hres
        · rw [← hi']
      split at heq
      · split at heq
        · exact hmods imp heq
        · cases heq
      · split at heq
        · exact hmods imp heq
        · split at heq
          · exact hmods imp heq
          · split at heq
            · exact hmods imp heq
            · split at heq
              · exact hmods imp heq
              · split at heq
                · exact hmods imp heq
                · cases heq
  · intro hrel
    unfold resolveImport resolveImportN
    rw [if_pos (by rw [hrel]; simp)]
    cases hr : resolveRelative fs cfg (normalizePath sp) fromFile with
    | none => exact Or.inl rfl
    | some r =>
      exact Or.inr ⟨r, rfl, resolveRelative_exists fs cfg _ fromFile r hr⟩

/-- C8, witness: the second part applied to an empty file system — a
parent-relative specifier with no candidate on disk resolves to the
absence value. -/
theorem c8_resolution_failure_is_silent_null_witness :
    resolveImport (⟨[]⟩ : FileSys Ast) tsCfg "../missing" "/r/b.ts" = none ∨
    ∃ r, resolveImport (⟨[]⟩ : FileSys Ast) tsCfg "../missing" "/r/b.ts" = some r ∧
      fileExists (⟨[]⟩ : FileSys Ast) r = true :=
  (c8_resolution_failure_is_silent_null (⟨[]⟩ : FileSys Ast) tsCfg [] none "/r/a.ts"
    none "../missing" "/r/b.ts").2 (by decide)

/-! ### Per-file failure-recovery lemmas -/

/-- An unparseable candidate contributes nothing to a consumer walk. -/
theorem consumerRecord_none_of_parse_none (fs : FileSys Ast) (cfg : ResolverCfg)
    (barrel : String) (names : List String) (f : String)
    (h : parseFile fs f = none) :
    consumerRecord fs cfg barrel names f = none := by
  unfold consumerRecord
  split
  · rfl
  · rw [h]

/-- A consumer walk is unchanged when an unparseable file is removed
from the enumeration. -/
theorem findBarrelConsumers_erase_bad (fs : FileSys Ast) (cfg : ResolverCfg)
    (l1 l2 : List String) (f : String) (h : parseFile fs f = none)
    (barrel : String) (names visited : List String) :
    findBarrelConsumers fs cfg (l1 ++ f :: l2) barrel names visited =
      findBarrelConsumers fs cfg (l1 ++ l2) barrel names visited := by
  unfold findBarrelConsumers
  split
  · rfl
  · rw [List.filterMap_append, List.filterMap_cons,
      consumerRecord_none_of_parse_none fs cfg barrel names f h,
      List.filterMap_append]

/-- The loop body skips an unparseable file entirely. -/
theorem processOneFile_skip_bad (fs : FileSys Ast) (cfg : ResolverCfg)
    (mn tp : Option String) (files : List String) (st : SearchState) (f : String)
    (h : parseFile fs f = none) :
    processOneFile fs cfg mn tp files st f = st := by
  unfold processOneFile
  rw [h]

/-- The loop body does not depend on an unparseable file's presence in
the consumer-walk corpus. -/
theorem processOneFile_files_erase_bad (fs : FileSys Ast) (cfg : ResolverCfg)
    (mn tp : Option String) (l1 l2 : List String) (f : String)
    (h : parseFile fs f = none) :
    processOneFile fs cfg mn tp (l1 ++ f :: l2) =
      processOneFile fs cfg mn tp (l1 ++ l2) := by
  funext st g
  unfold processOneFile
  simp only [findBarrelConsumers_erase_bad fs cfg l1 l2 f h]

/-- Removing an unparseable file from the enumeration leaves the whole
search unchanged. -/
theorem c9_part_c (fs : FileSys Ast) (cfg : ResolverCfg) (mn mp : Option String)
    (sp : String) (l1 l2 : List String) (f : String)
    (h : parseFile fs f = none) :
    findFilesImporting fs cfg mn mp sp (.ok (l1 ++ f :: l2)) =
      findFilesImporting fs cfg mn mp sp (.ok (l1 ++ l2)) := by
  unfold findFilesImporting
  dsimp only
  congr 1
  unfold searchGo
  rw [processOneFile_files_erase_bad fs cfg mn (resolveTargetPath fs cfg mp sp) l1 l2 f h]
  rw [show l1 ++ f :: l2 = (l1 ++ [f]) ++ l2 by simp, List.foldl_append, List.foldl_append,
    List.foldl_cons, List.foldl_nil,
    processOneFile_skip_bad fs cfg mn (resolveTargetPath fs cfg mp sp) (l1 ++ l2) _ f h,
    ← List.foldl_append]

/-- A consumer record's file parsed successfully. -/
theorem consumerRecord_parse_ok (fs : FileSys Ast) (cfg : ResolverCfg)
    (barrel : String) (names : List String) (g : String) (r : ImporterResult)
    (h : consumerRecord fs cfg barrel names g = some r) :
    ¬ parseFile fs r.file = none := by
  have hfile := consumerRecord_file fs cfg barrel names g r h
  unfold consumerRecord at h
  split at h
  · cases h
  · split at h
    · cases h
    · rename_i ast hg
      rw [hfile, hg]
      simp

/-- Files of a merged result list come from the original records or the
merged consumers. -/
theorem mem_map_foldl_addConsumer (cs rs : List ImporterResult) (x : String)
    (h : x ∈ (cs.foldl addConsumer rs).map ImporterResult.file) :
    x ∈ rs.map ImporterResult.file ∨ x ∈ cs.map ImporterResult.file := by
  induction cs generalizing rs with
  | nil => exact Or.inl (by simpa using h)
  | cons c cs ih =>
    rw [List.foldl_cons] at h
    rcases ih (addConsumer rs c) h with h1 | h1
    · rw [addConsumer_map_file] at h1
      split at h1
      · exact Or.inl h1
      · rcases List.mem_append.mp h1 with h2 | h2
        · exact Or.inl h2
        · right
          rw [List.map_cons]
          exact List.mem_cons.mpr (Or.inl (by simpa using h2))
    · right
      rw [List.map_cons]
      exact List.mem_cons_of_mem _ h1

/-- Every file of a consumer walk parsed successfully. -/
theorem consumers_parse_ok (fs : FileSys Ast) (cfg : ResolverCfg) (files : List String)
    (barrel : String) (names visited : List String) (x : String)
    (h : x ∈ ((findBarrelConsumers fs cfg files barrel names visited).1).map
      ImporterResult.file) :
    ¬ parseFile fs x = none := by
  unfold findBarrelConsumers at h
  split at h
  · simp at h
  · obtain ⟨c, hc, hcf⟩ := List.mem_map.mp h
    obtain ⟨g, _, hg⟩ := List.mem_filterMap.mp hc
    rw [← hcf]
    exact consumerRecord_parse_ok fs cfg barrel names g c hg

/-- The search loop never emits a record for a file that fails to
parse. -/
theorem searchGo_no_bad_file (fs : FileSys Ast) (cfg : ResolverCfg)
    (mn tp : Option String) (files todo : List String) (st : SearchState) (f : String)
    (hf : parseFile fs f = none)
    (hst : ∀ r ∈ st.results, ¬ r.file = f) :
    ∀ r ∈ (searchGo fs cfg mn tp files st todo).results, ¬ r.file = f := by
  induction todo generalizing st with
  | nil => exact hst
  | cons g gl ih =>
    unfold searchGo at *
    rw [List.foldl_cons]
    refine ih (processOneFile fs cfg mn tp files st g) ?_
    intro r hr
    have hgood : ∀ ast, parseFile fs g = some ast → ¬ (g : String) = f := by
      intro ast hg hgf
      rw [hgf, hf] at hg
      cases hg
    unfold processOneFile at hr
    split at hr
    · exact hst r hr
    · rename_i ast hg
      split at hr
      · exact hst r hr
      · split at hr
        · rcases List.mem_append.mp hr with h1 | h1
          · exact hst r h1
          · have : r.file = g := by
              have := List.mem_singleton.mp h1
              rw [this]
            rw [this]
            exact hgood ast hg
        · split at hr
          · have hx := List.mem_map_of_mem ImporterResult.file hr
            rcases mem_map_foldl_addConsumer _ _ _ hx with h1 | h1
            · rw [List.map_append] at h1
              rcases List.mem_append.mp h1 with h2 | h2
              · obtain ⟨r', hr', hrf⟩ := List.mem_map.mp h2
                rw [← hrf]
                exact hst r' hr'
              · have hrg : r.file = g := by simpa using h2
                rw [hrg]
                exact hgood ast hg
            · intro hrf
              exact consumers_parse_ok fs cfg files g _ st.visited r.file h1 (hrf ▸ hf)
          · rcases List.mem_append.mp hr with h1 | h1
            · exact hst r h1
            · have : r.file = g := by
                have := List.mem_singleton.mp h1
                rw [this]
              rw [this]
              exact hgood ast hg

/-- C9: in `findFilesImporting` a file that fails to parse is skipped
locally — it contributes no matches (no result record carries its path),
and removing it from the enumeration changes nothing, so it never aborts
the processing of the remaining files — while the overall operation
returns the error channel exactly when file enumeration itself does:
enumeration errors are rethrown and a successful enumeration always
produces a successful result. -/
theorem c9_parse_failure_skipped_locally (fs : FileSys Ast) (cfg : ResolverCfg) (mn mp : Option String)
    (sp : String) :
    (∀ e : String, findFilesImporting fs cfg mn mp sp (.error e) =
        .error ("Failed to find files importing: " ++ e)) ∧
    (∀ files : List String, ∃ rs, findFilesImporting fs cfg mn mp sp (.ok files) = .ok rs) ∧
    (∀ files : List String, ∀ f : String, parseFile fs f = none →
      ∀ r ∈ okResults (findFilesImporting fs cfg mn mp sp (.ok files)), ¬ r.file = f) ∧
    (∀ l1 l2 : List String, ∀ f : String, parseFile fs f = none →
      findFilesImporting fs cfg mn mp sp (.ok (l1 ++ f :: l2)) =
        findFilesImporting fs cfg mn mp sp (.ok (l1 ++ l2))) := by
  refine ⟨fun e => rfl, fun files => ⟨_, rfl⟩, ?_, c9_part_c fs cfg mn mp sp⟩
  intro files f hf
  exact searchGo_no_bad_file fs cfg mn (resolveTargetPath fs cfg mp sp) files files
    ⟨[], []⟩ f hf (by intro r hr; cases hr)

/-- C9, witness: the exclusion and the skip-locality conjuncts applied to
a concrete corpus containing the unparseable `/r/bad.ts`. -/
theorem c9_parse_failure_skipped_locally_witness :
    (∀ r ∈ okResults (findFilesImporting fsC9 tsCfg none (some "/r/t.ts") "/r"
        (.ok ["/r/bad.ts", "/r/g/a.ts", "/r/t.ts"])), ¬ r.file = "/r/bad.ts") ∧
    findFilesImporting fsC9 tsCfg none (some "/r/t.ts") "/r"
        (.ok ([] ++ "/r/bad.ts" :: ["/r/g/a.ts", "/r/t.ts"])) =
      findFilesImporting fsC9 tsCfg none (some "/r/t.ts") "/r"
        (.ok ([] ++ ["/r/g/a.ts", "/r/t.ts"])) :=
  ⟨(c9_parse_failure_skipped_locally fsC9 tsCfg none (some "/r/t.ts") "/r").2.2.1
      ["/r/bad.ts", "/r/g/a.ts", "/r/t.ts"] "/r/bad.ts" (by decide),
   (c9_parse_failure_skipped_locally fsC9 tsCfg none (some "/r/t.ts") "/r").2.2.2 []
      ["/r/g/a.ts", "/r/t.ts"] "/r/bad.ts" (by decide)⟩

/-! ### Project-analysis consistency -/

/-- The files-map entry one enumerated file contributes when it
parses. -/
def parsedEntry (fs : FileSys Ast) (flags : DetectFlags) (f : String) :
    Option (String × FileImports) :=
  (parseFile fs f).map (fun ast => (f, extractAll ast flags))

/-- Object assignment with a fresh key appends the entry. -/
theorem upsert_of_not_mem (m : List (String × FileImports)) (k : String) (v : FileImports)
    (h : ¬ k ∈ m.map Prod.fst) : upsert m k v = m ++ [(k, v)] := by
  induction m with
  | nil => rfl
  | cons e m ih =>
    rw [show (e :: m : List (String × FileImports)) = (e.1, e.2) :: m from rfl, upsert]
    rw [List.map_cons] at h
    rw [if_neg (fun he => h (List.mem_cons.mpr (Or.inl he.symm)))]
    rw [ih (fun hm => h (List.mem_cons_of_mem _ hm))]
    rfl

/-- Closed form of the `analyzeProject` loop on a duplicate-free
enumeration: the files map collects one entry per successfully parsed
file, in order, and each counter accumulates the corresponding list
lengths. -/
theorem analyzeFold_spec (fs : FileSys Ast) (flags : DetectFlags) (files : List String)
    (st : AnalyzeState)
    (hdisj : ∀ f ∈ files, ¬ f ∈ st.filesMap.map Prod.fst) (hnd : files.Nodup) :
    files.foldl (analyzeOneFile fs flags) st =
      ⟨st.filesMap ++ files.filterMap (parsedEntry fs flags),
       st.totalStatic +
         ((files.filterMap (parsedEntry fs flags)).map (fun e => e.2.staticImps.length)).sum,
       st.totalDynamic +
         ((files.filterMap (parsedEntry fs flags)).map (fun e => e.2.dynamicImps.length)).sum,
       st.totalLazy +
         ((files.filterMap (parsedEntry fs flags)).map (fun e => e.2.lazyImps.length)).sum,
       st.totalRequire +
         ((files.filterMap (parsedEntry fs flags)).map
           (fun e => e.2.requireImps.length)).sum⟩ := by
  induction files generalizing st with
  | nil => simp
  | cons f fl ih =>
    rw [List.nodup_cons] at hnd
    rw [List.foldl_cons, List.filterMap_cons]
    cases hp : parseFile fs f with
    | none =>
      have hstep : analyzeOneFile fs flags st f = st := by
        unfold analyzeOneFile
        rw [hp]
      rw [hstep, show parsedEntry fs flags f = none by unfold parsedEntry; rw [hp]; rfl]
      exact ih st (fun g hg => hdisj g (List.mem_cons_of_mem f hg)) hnd.2
    | some ast =>
      have hstep : analyzeOneFile fs flags st f =
          ⟨st.filesMap ++ [(f, extractAll ast flags)],
           st.totalStatic + (extractAll ast flags).staticImps.length,
           st.totalDynamic + (extractAll ast flags).dynamicImps.length,
           st.totalLazy + (extractAll ast flags).lazyImps.length,
           st.totalRequire + (extractAll ast flags).requireImps.length⟩ := by
        unfold analyzeOneFile
        rw [hp]
        dsimp only
        rw [upsert_of_not_mem st.filesMap f (extractAll ast flags)
          (hdisj f (List.mem_cons_self f fl))]
      rw [hstep,
        show parsedEntry fs flags f = some (f, extractAll ast flags) by
          unfold parsedEntry; rw [hp]; rfl]
      rw [ih ⟨st.filesMap ++ [(f, extractAll ast flags)], _, _, _, _⟩ ?_ hnd.2]
      · simp [Nat.add_assoc]
      · intro g hg
        rw [List.map_append, List.mem_append]
        rintro (h1 | h1)
        · exact hdisj g (List.mem_cons_of_mem f hg) h1
        · have : g = f := by simpa using h1
          exact hnd.1 (this ▸ hg)

/-- The keys of the collected files map are exactly the successfully
parsed files, in enumeration order. -/
theorem filterMap_parsedEntry_fst (fs : FileSys Ast) (flags : DetectFlags)
    (files : List String) :
    (files.filterMap (parsedEntry fs flags)).map Prod.fst =
      files.filter (fun f => (parseFile fs f).isSome) := by
  induction files with
  | nil => rfl
  | cons f fl ih =>
    rw [List.filterMap_cons, List.filter_cons]
    cases hp : parseFile fs f with
    | none =>
      rw [show parsedEntry fs flags f = none by unfold parsedEntry; rw [hp]; rfl]
      rw [if_neg (by simp)]
      exact ih
    | some ast =>
      rw [show parsedEntry fs flags f = some (f, extractAll ast flags) by
        unfold parsedEntry; rw [hp]; rfl]
      rw [if_pos (by simp)]
      rw [List.map_cons, ih]

/-- C10: the `ProjectAnalysis` returned by `analyzeProject` is internally
consistent on a duplicate-free enumeration (which `findFiles` guarantees
via `unique: true` plus sorting): `totalFiles` equals the number of
entries of the files map, whose keys are exactly the successfully parsed
files; each summary counter equals the sum over those entries of the
corresponding per-file import-list length; and `totalImports` is the sum
of the four summary counters. -/
theorem c10_analyzeProject_consistent (fs : FileSys Ast) (flags : DetectFlags) (files : List String)
    (h : files.Nodup) :
    (analyzeProject fs flags files).totalFiles = (analyzeProject fs flags files).files.length ∧
    (analyzeProject fs flags files).files.map Prod.fst =
      files.filter (fun f => (parseFile fs f).isSome) ∧
    (analyzeProject fs flags files).summary.staticN =
      ((analyzeProject fs flags files).files.map (fun e => e.2.staticImps.length)).sum ∧
    (analyzeProject fs flags files).summary.dynamicN =
      ((analyzeProject fs flags files).files.map (fun e => e.2.dynamicImps.length)).sum ∧
    (analyzeProject fs flags files).summary.lazyN =
      ((analyzeProject fs flags files).files.map (fun e => e.2.lazyImps.length)).sum ∧
    (analyzeProject fs flags files).summary.requireN =
      ((analyzeProject fs flags files).files.map (fun e => e.2.requireImps.length)).sum ∧
    (analyzeProject fs flags files).totalImports =
      (analyzeProject fs flags files).summary.staticN +
      (analyzeProject fs flags files).summary.dynamicN +
      (analyzeProject fs flags files).summary.lazyN +
      (analyzeProject fs flags files).summary.requireN := by
  have hspec := analyzeFold_spec fs flags files ⟨[], 0, 0, 0, 0⟩ (by intro f _ hf; cases hf) h
  unfold analyzeProject
  rw [hspec]
  dsimp only
  refine ⟨rfl, ?_, by simp, by simp, by simp, by simp, rfl⟩
  rw [List.nil_append]
  exact filterMap_parsedEntry_fst fs flags files

/-- C10, witness: the consistency statement applied to a concrete corpus
with one unparseable file. -/
theorem c10_analyzeProject_consistent_witness :
    (analyzeProject fsC9 allFlags ["/r/bad.ts", "/r/g/a.ts", "/r/t.ts"]).totalFiles =
      (analyzeProject fsC9 allFlags ["/r/bad.ts", "/r/g/a.ts", "/r/t.ts"]).files.length :=
  (c10_analyzeProject_consistent fsC9 allFlags ["/r/bad.ts", "/r/g/a.ts", "/r/t.ts"]
    (by decide)).1

end ImportsDetector
